import Mathlib

/-!
Verification of the Tracker issue/PR board core: the `store` package
(`Migrate` schema, `UpsertCore`, `PatchCustom`, `ListItems`,
`computeOverdueDays`), the `gitcode` client's record normalization
(`getList`/`firstString`), and the web board's `derivedOverdueDays`.
The persisted `items` table is embedded as a list of rows; SQL
statements are embedded by their row-level semantics.
-/

namespace Tracker

/-- A row of the `items` table (schema from `Store.Migrate`): external
columns (title .. updated_at) plus overlay columns with their schema
defaults (empty strings / 0). `SyncInternal` is stored as an INTEGER in
SQLite and read back as a Bool, embedded directly as `Bool`. -/
structure Row where
  Kind : String
  RepoFullName : String
  ExternalKey : String
  Title : String
  State : String
  URL : String
  Author : String
  CreatedAt : String
  UpdatedAt : String
  Assignee : String
  AssigneeGroup : String
  Note : String
  EstimatedAt : String
  SyncInternal : Bool
  Priority : Int
  DueAt : String
deriving Repr, DecidableEq

abbrev Table := List Row

/-- `store.CoreItem`: a normalized external record handed to `UpsertCore`. -/
structure CoreItem where
  Kind : String
  RepoFullName : String
  ExternalKey : String
  Title : String
  State : String
  URL : String
  Author : String
  CreatedAt : String
  UpdatedAt : String
deriving Repr, DecidableEq

/-- The identity triple of a stored row (the UNIQUE key of the table). -/
def identityOf (r : Row) : String × String × String :=
  (r.Kind, r.RepoFullName, r.ExternalKey)

/-- The identity triple of an incoming external record. -/
def keyOfCore (a : CoreItem) : String × String × String :=
  (a.Kind, a.RepoFullName, a.ExternalKey)

/-- The validity check in `UpsertCore`'s loop: records with an empty
kind, repository, external key or title are skipped (`continue`). -/
def validCore (a : CoreItem) : Bool :=
  !(a.Kind == "") && !(a.RepoFullName == "") && !(a.ExternalKey == "") && !(a.Title == "")

/-- Row/record identity match, as in `ON CONFLICT(kind, repo_full_name,
external_key)`. -/
def matchesCore (a : CoreItem) (r : Row) : Bool :=
  r.Kind == a.Kind && r.RepoFullName == a.RepoFullName && r.ExternalKey == a.ExternalKey

/-- Whether some stored row already carries the record's identity triple. -/
def hasKey (t : Table) (a : CoreItem) : Bool :=
  t.any (matchesCore a)

/-- `DO UPDATE SET title=excluded.title, ...`: overwrite exactly the six
external columns of a row from the incoming record. -/
def setExt (r : Row) (a : CoreItem) : Row :=
  { r with Title := a.Title, State := a.State, URL := a.URL, Author := a.Author,
           CreatedAt := a.CreatedAt, UpdatedAt := a.UpdatedAt }

/-- The row synthesized by the INSERT branch: identity and external
columns from the record, overlay columns at their schema defaults. -/
def newRow (a : CoreItem) : Row :=
  { Kind := a.Kind, RepoFullName := a.RepoFullName, ExternalKey := a.ExternalKey,
    Title := a.Title, State := a.State, URL := a.URL, Author := a.Author,
    CreatedAt := a.CreatedAt, UpdatedAt := a.UpdatedAt,
    Assignee := "", AssigneeGroup := "", Note := "", EstimatedAt := "",
    SyncInternal := false, Priority := 0, DueAt := "" }

/-- One execution of the prepared `INSERT ... ON CONFLICT ... DO UPDATE`
statement: update the conflicting row's external columns if the identity
triple is present, otherwise append a fresh row. -/
def upsertOne (t : Table) (a : CoreItem) : Table :=
  if hasKey t a then t.map (fun r => if matchesCore a r then setExt r a else r)
  else t ++ [newRow a]

/-- One iteration of `UpsertCore`'s loop including the validity skip. -/
def applyItem (t : Table) (a : CoreItem) : Table :=
  if validCore a then upsertOne t a else t

/-- The loop of `Store.UpsertCore`: skip invalid records, execute the
upsert statement for the rest, counting every executed statement. -/
def upsertLoop : Table → List CoreItem → Nat × Table
  | t, [] => (0, t)
  | t, a :: l =>
    if validCore a then
      let s := upsertLoop (upsertOne t a) l
      (s.1 + 1, s.2)
    else upsertLoop t l

/-- `Store.UpsertCore`: apply a batch of normalized records to the table,
returning the written count and the new table state. (The transaction
commit and SQL-level error paths live in the host database layer; the
pure merge semantics is total.) -/
def UpsertCore (t : Table) (items : List CoreItem) : Nat × Table :=
  upsertLoop t items

/-- The overlay columns of a row (never touched by sync). -/
def overlayOf (r : Row) : String × String × String × String × Bool × Int × String :=
  (r.Assignee, r.AssigneeGroup, r.Note, r.EstimatedAt, r.SyncInternal, r.Priority, r.DueAt)

/-- Identity plus overlay: everything a sync upsert must not change on a
pre-existing row. -/
def frameOf (r : Row) : (String × String × String) × (String × String × String × String × Bool × Int × String) :=
  (identityOf r, overlayOf r)

/-- The last valid record of a batch carrying a given identity triple —
the record whose external columns win after the whole batch is applied. -/
def extLast : List CoreItem → (String × String × String) → Option CoreItem
  | [], _ => none
  | a :: l, k =>
    match extLast l k with
    | some b => some b
    | none => if validCore a ∧ keyOfCore a = k then some a else none

/-- The net effect of a batch on one pre-existing row: overwrite the
external columns with the batch's last matching record, if any. -/
def rowUpdate (l : List CoreItem) (r : Row) : Row :=
  match extLast l (identityOf r) with
  | some a => setExt r a
  | none => r

/-! ### Date parsing (`time.Parse` layouts used by `computeOverdueDays`) -/

/-- Gregorian leap year, as in Go's `time` package. -/
def isLeap (y : Nat) : Bool :=
  (y % 4 == 0 && y % 100 != 0) || y % 400 == 0

def daysInMonth (y m : Nat) : Nat :=
  if m == 2 then (if isLeap y then 29 else 28)
  else if m == 4 || m == 6 || m == 9 || m == 11 then 30
  else 31

/-- Days since 1970-01-01 of a proleptic-Gregorian civil date
(Hinnant's civil-days algorithm, matching Go's absolute-time calendar). -/
def daysFromCivil (y : Int) (m d : Nat) : Int :=
  let yAdj : Int := if m ≤ 2 then y - 1 else y
  let era : Int := Int.fdiv yAdj 400
  let yoe : Int := yAdj - era * 400
  let mp : Int := ((m : Int) + 9) % 12
  let doy : Int := Int.fdiv (153 * mp + 2) 5 + (d : Int) - 1
  let doe : Int := yoe * 365 + Int.fdiv yoe 4 - Int.fdiv yoe 100 + doy
  era * 146097 + doe - 719468

/-- `time.Parse("2006-01-02", s)`: a strict `yyyy-mm-dd` date, validated
against the calendar; result is seconds since the epoch at UTC midnight. -/
def parseDateOnly (s : String) : Option Int :=
  match s.toList with
  | [y1, y2, y3, y4, '-', m1, m2, '-', d1, d2] =>
    if y1.isDigit && y2.isDigit && y3.isDigit && y4.isDigit &&
        m1.isDigit && m2.isDigit && d1.isDigit && d2.isDigit then
      let y := ((y1.toNat - 48) * 10 + (y2.toNat - 48)) * 100 +
        ((y3.toNat - 48) * 10 + (y4.toNat - 48))
      let m := (m1.toNat - 48) * 10 + (m2.toNat - 48)
      let d := (d1.toNat - 48) * 10 + (d2.toNat - 48)
      if 1 ≤ m && m ≤ 12 && 1 ≤ d && d ≤ daysInMonth y m then
        some (daysFromCivil (y : Int) m d * 86400)
      else none
    else none
  | _ => none

def parseTwoDigits (a b : Char) : Option Nat :=
  if a.isDigit && b.isDigit then some ((a.toNat - 48) * 10 + (b.toNat - 48)) else none

/-- The `Z07:00` zone suffix of the RFC 3339 layout. -/
def parseZone : List Char → Option Int
  | ['Z'] => some 0
  | ['+', h1, h2, ':', m1, m2] => do
    let h ← parseTwoDigits h1 h2
    let m ← parseTwoDigits m1 m2
    if h ≤ 23 && m ≤ 59 then some ((h : Int) * 3600 + (m : Int) * 60) else none
  | ['-', h1, h2, ':', m1, m2] => do
    let h ← parseTwoDigits h1 h2
    let m ← parseTwoDigits m1 m2
    if h ≤ 23 && m ≤ 59 then some (-((h : Int) * 3600 + (m : Int) * 60)) else none
  | _ => none

/-- Go's parser accepts an optional fractional-seconds field after the
seconds; the fraction is dropped here (sub-second precision does not
affect whole-day arithmetic in this development). -/
def dropFraction (cs : List Char) : List Char :=
  match cs with
  | '.' :: rest =>
    if (rest.takeWhile Char.isDigit) = ([] : List Char) then '.' :: rest
    else rest.dropWhile Char.isDigit
  | _ => cs

/-- `time.Parse(time.RFC3339, s)`: `yyyy-mm-ddThh:mm:ss` plus zone;
result is seconds since the epoch (the zone offset shifts the instant,
matching Go where `Sub` compares instants regardless of location). -/
def parseRFC3339 (s : String) : Option Int :=
  match s.toList with
  | y1 :: y2 :: y3 :: y4 :: '-' :: m1 :: m2 :: '-' :: d1 :: d2 :: 'T' ::
      h1 :: h2 :: ':' :: mi1 :: mi2 :: ':' :: s1 :: s2 :: rest => do
    let date ← parseDateOnly (String.mk [y1, y2, y3, y4, '-', m1, m2, '-', d1, d2])
    let h ← parseTwoDigits h1 h2
    let mi ← parseTwoDigits mi1 mi2
    let se ← parseTwoDigits s1 s2
    if h ≤ 23 && mi ≤ 59 && se ≤ 59 then
      let off ← parseZone (dropFraction rest)
      some (date + (h : Int) * 3600 + (mi : Int) * 60 + (se : Int) - off)
    else none
  | _ => none

/-- The branch in `computeOverdueDays`: `strings.Contains(dueAt, "T")`
selects the RFC 3339 layout, otherwise the date-only layout. -/
def parseDue (s : String) : Option Int :=
  if s.toList.contains 'T' then parseRFC3339 s else parseDateOnly s

/-- `store.computeOverdueDays`, with `time.Now()` passed explicitly as
seconds since the epoch. Empty or unparseable due dates yield 0; a due
date in the future yields 0 (`now.Before(t)`); otherwise
`int(now.Sub(t).Hours() / 24)`, i.e. the elapsed whole days. (Go's
`now.In(t.Location())` changes only the displayed zone, not the instant,
so it does not affect this arithmetic.) -/
def computeOverdueDays (now : Int) (dueAt : String) : Int :=
  if dueAt = "" then 0
  else
    match parseDue dueAt with
    | none => 0
    | some t => if now < t then 0 else Int.ofNat ((now - t).toNat / 86400)

/-- Milliseconds per day, as written in the web board. -/
def msPerDay : Int := 1000 * 60 * 60 * 24

/-- `derivedOverdueDays` from the web `RepositoryBoard`: JavaScript
times are milliseconds since the epoch; `none` stands for an absent or
`NaN` (unparseable) `Date`. `Math.floor` of the real division is the
flooring integer division `Int.fdiv`. -/
def derivedOverdueDays (dueMs createdMs : Option Int) (todayMs : Int) : Int :=
  let fallbackDue : Option Int :=
    match createdMs with
    | none => none
    | some c => some (c + 14 * msPerDay)
  let target : Option Int :=
    match dueMs with
    | some d => some d
    | none => fallbackDue
  match target with
  | none => 0
  | some t => Int.fdiv (todayMs - t) msPerDay

/-! ### Listing (`Store.ListItems`) -/

/-- `store.Item` as returned to callers: a row plus the derived,
never-persisted overdue-day count. -/
structure Item extends Row where
  OverdueDays : Int
deriving Repr, DecidableEq

structure ListFilter where
  Kind : String
  RepoFullName : String
deriving Repr, DecidableEq

/-- The WHERE clause of `ListItems`: an empty filter field matches all. -/
def matchesFilter (f : ListFilter) (r : Row) : Bool :=
  (f.Kind == "" || r.Kind == f.Kind) &&
    (f.RepoFullName == "" || r.RepoFullName == f.RepoFullName)

/-- Strict lexicographic comparison of character lists: SQLite's BINARY
collation is a byte-wise memcmp of the UTF-8 encodings, which coincides
with code-point-lexicographic order (a strict prefix is smaller). -/
def strLt : List Char → List Char → Bool
  | [], [] => false
  | [], _ :: _ => true
  | _ :: _, [] => false
  | c :: cs, d :: ds => if c = d then strLt cs ds else decide (c < d)

/-- Reflexive lexicographic comparison of character lists. -/
def strLe : List Char → List Char → Bool
  | [], _ => true
  | _ :: _, [] => false
  | c :: cs, d :: ds => if c = d then strLe cs ds else decide (c < d)

/-- `ORDER BY due_at DESC, updated_at DESC` on TEXT columns under
SQLite's BINARY collation: `a` may be listed before `b` iff `a`'s
due_at is strictly larger, or equal with `a`'s updated_at at least as
large. -/
def listBefore (a b : Row) : Prop :=
  strLt b.DueAt.toList a.DueAt.toList = true ∨
    (b.DueAt = a.DueAt ∧ strLe b.UpdatedAt.toList a.UpdatedAt.toList = true)

instance : DecidableRel listBefore := fun a b => by
  unfold listBefore
  infer_instance

/-- `Store.ListItems`: filter, order by due_at then updated_at
descending, and return each row with a freshly computed overdue-day
count. (Any stable sort models the SQL ORDER BY.) -/
def ListItems (now : Int) (f : ListFilter) (t : Table) : List Item :=
  (List.insertionSort listBefore (t.filter (matchesFilter f))).map
    (fun r => { toRow := r, OverdueDays := computeOverdueDays now r.DueAt })

/-- Modelled from the spec: the listing's "effective due date" of a row —
the parsed due-at when present and parseable, otherwise 14 days after
the parsed created-at. Used only to compare the claimed ordering with
the implemented one. -/
def specEffectiveDue (r : Row) : Option Int :=
  match parseDue r.DueAt with
  | some d => some d
  | none => (parseDue r.CreatedAt).map (fun c => c + 14 * 86400)

/-! ### Overlay patching (`Store.PatchCustom`) -/

/-- `store.CustomPatch`: absent field (`none`) = leave unchanged,
present field = set to this value. -/
structure CustomPatch where
  Assignee : Option String
  AssigneeGroup : Option String
  Note : Option String
  EstimatedResolveAt : Option String
  SyncInternal : Option Bool
  Priority : Option Int
  DueAt : Option String
deriving Repr, DecidableEq

/-- The empty patch (all fields absent). -/
def emptyPatch : CustomPatch :=
  { Assignee := none, AssigneeGroup := none, Note := none, EstimatedResolveAt := none,
    SyncInternal := none, Priority := none, DueAt := none }

/-- The chain of `if p.X != nil` assignments in `PatchCustom`. -/
def applyPatch (p : CustomPatch) (r : Row) : Row :=
  let r := match p.Assignee with | some v => { r with Assignee := v } | none => r
  let r := match p.AssigneeGroup with | some v => { r with AssigneeGroup := v } | none => r
  let r := match p.Note with | some v => { r with Note := v } | none => r
  let r := match p.EstimatedResolveAt with | some v => { r with EstimatedAt := v } | none => r
  let r := match p.SyncInternal with | some v => { r with SyncInternal := v } | none => r
  let r := match p.Priority with | some v => { r with Priority := v } | none => r
  match p.DueAt with | some v => { r with DueAt := v } | none => r

/-- The WHERE clause shared by the SELECT and UPDATE of `PatchCustom`. -/
def matchesKey (kind repoFullName externalKey : String) (r : Row) : Bool :=
  r.Kind == kind && r.RepoFullName == repoFullName && r.ExternalKey == externalKey

/-- The UPDATE statement of `PatchCustom`: write the seven overlay
columns of the merged record into a matching row. -/
def writeOverlay (src r : Row) : Row :=
  { r with Assignee := src.Assignee, AssigneeGroup := src.AssigneeGroup, Note := src.Note,
           EstimatedAt := src.EstimatedAt, SyncInternal := src.SyncInternal,
           Priority := src.Priority, DueAt := src.DueAt }

/-- The distinguished pure error of the store layer (`errNotFound`);
SQL transport failures live in the host database layer. -/
inductive StoreErr where
  | notFound
deriving Repr, DecidableEq

/-- `store.IsNotFound`. -/
def IsNotFound : StoreErr → Bool
  | .notFound => true

/-- `Store.PatchCustom`: read the row for the identity triple (not-found
is signalled before anything is written), merge the present patch
fields, write back the overlay columns, and return the merged record
with a freshly computed overdue-day count. -/
def PatchCustom (now : Int) (t : Table) (kind repoFullName externalKey : String)
    (p : CustomPatch) : Except StoreErr (Item × Table) :=
  match t.find? (matchesKey kind repoFullName externalKey) with
  | none => .error .notFound
  | some r =>
    let it := applyPatch p r
    let t' := t.map (fun row =>
      if matchesKey kind repoFullName externalKey row then writeOverlay it row else row)
    .ok ({ toRow := it, OverdueDays := computeOverdueDays now it.DueAt }, t')

/-! ### Remote record normalization (`gitcode.getList`) -/

/-- A loosely-typed JSON value as seen through Go's `map[string]any` and
`anyToString`: strings, integral numbers (Go decodes JSON numbers as
`float64`; integral values print via `FormatInt`), nested objects, and
everything else (arrays, booleans, null — stringified to ""). -/
inductive JVal where
  | s (v : String)
  | n (v : Int)
  | obj (fields : List (String × JVal))
  | other

/-- `gitcode.anyToString` (restricted to integral numbers). -/
def anyToString : JVal → String
  | .s v => v
  | .n v => toString v
  | .obj _ => ""
  | .other => ""

/-- Go map lookup, with the decoded JSON object as an association list
(JSON object keys are unique). -/
def lookupJ : List (String × JVal) → String → Option JVal
  | [], _ => none
  | (k', v) :: rest, k => if k' == k then some v else lookupJ rest k

abbrev RawRecord := List (String × JVal)

/-- `gitcode.firstString`: probe an ordered list of candidate field
names and return the first present, non-empty stringified value. -/
def firstString (m : RawRecord) : List String → String
  | [] => ""
  | k :: rest =>
    match lookupJ m k with
    | some v =>
      let sv := anyToString v
      if sv == "" then firstString m rest else sv
    | none => firstString m rest

/-- `gitcode.RemoteItem`. -/
structure RemoteItem where
  Key : String
  Title : String
  State : String
  URL : String
  Author : String
  CreatedAt : String
  UpdatedAt : String
deriving Repr, DecidableEq

/-- The author extraction in `getList`: nested `user` object, then
nested `author` object, then a flat `author` field. -/
def extractAuthor (m : RawRecord) : String :=
  let a1 := match lookupJ m "user" with
    | some (.obj v) => firstString v ["login", "username", "name"]
    | _ => ""
  if a1 == "" then
    let a2 := match lookupJ m "author" with
      | some (.obj v) => firstString v ["login", "username", "name"]
      | _ => ""
    if a2 == "" then firstString m ["author"] else a2
  else a1

/-- The identity-key probe order in `getList`. -/
def idProbeKeys : List String := ["number", "iid", "id"]

/-- One iteration of `getList`'s loop: a record without a usable
identity key is dropped (`continue`), any other is normalized. -/
def normalizeRecord (m : RawRecord) : Option RemoteItem :=
  if firstString m idProbeKeys == "" then none
  else some {
    Key := firstString m idProbeKeys
    Title := firstString m ["title"]
    State := firstString m ["state"]
    URL := firstString m ["html_url", "web_url", "url"]
    Author := extractAuthor m
    CreatedAt := firstString m ["created_at", "createdAt"]
    UpdatedAt := firstString m ["updated_at", "updatedAt"] }

/-- `gitcode.getList` on a decoded page: normalize every record,
silently dropping the identity-less ones. -/
def getList (raws : List RawRecord) : List RemoteItem :=
  raws.filterMap normalizeRecord

/-- The sync handler's conversion of a fetched record into a
`store.CoreItem` (from `RegisterRoutes`' `/api/sync`). -/
def toCoreItem (kind repoFullName : String) (it : RemoteItem) : CoreItem :=
  { Kind := kind, RepoFullName := repoFullName, ExternalKey := it.Key, Title := it.Title,
    State := it.State, URL := it.URL, Author := it.Author,
    CreatedAt := it.CreatedAt, UpdatedAt := it.UpdatedAt }

/-! ### Concrete fixtures for counterexamples and witnesses -/

/-- A valid normalized external record. -/
def sampleCore : CoreItem :=
  { Kind := "issue", RepoFullName := "o/r", ExternalKey := "1", Title := "t",
    State := "open", URL := "u", Author := "a", CreatedAt := "2024-01-01",
    UpdatedAt := "2024-01-02" }

/-- A stored row of the fixture repository with the given external key,
due date, update time and creation time. -/
def boardRow (k due upd created : String) : Row :=
  { Kind := "issue", RepoFullName := "o/r", ExternalKey := k, Title := "t", State := "open",
    URL := "u", Author := "a", CreatedAt := created, UpdatedAt := upd,
    Assignee := "", AssigneeGroup := "", Note := "", EstimatedAt := "",
    SyncInternal := false, Priority := 0, DueAt := due }

/-- A patch setting only the (out-of-range) priority 9. -/
def patch9 : CustomPatch := { emptyPatch with Priority := some 9 }

/-- The table produced by syncing the fixture record into a fresh store. -/
def table9 : Table := (UpsertCore [] [sampleCore]).2

/-- The merged record returned by patching `table9` with `patch9`. -/
def it9 : Item :=
  { toRow := applyPatch patch9 (newRow sampleCore),
    OverdueDays := computeOverdueDays 0 (applyPatch patch9 (newRow sampleCore)).DueAt }

/-- The table state after patching `table9` with `patch9`. -/
def t9' : Table :=
  table9.map (fun row =>
    if matchesKey "issue" "o/r" "1" row then writeOverlay (applyPatch patch9 (newRow sampleCore)) row
    else row)

/-- The frame property a patch must satisfy between an old row `r` and
its replacement `n`: rows of other identities are untouched; on the
addressed row the identity and all external columns are unchanged, each
absent patch field leaves its overlay column byte-identical, and each
present patch field sets exactly its column. -/
def patchFrameRel (kind repo key : String) (p : CustomPatch) (r n : Row) : Prop :=
  (matchesKey kind repo key r = false → n = r) ∧
  (matchesKey kind repo key r = true →
    identityOf n = identityOf r ∧
    n.Title = r.Title ∧ n.State = r.State ∧ n.URL = r.URL ∧ n.Author = r.Author ∧
    n.CreatedAt = r.CreatedAt ∧ n.UpdatedAt = r.UpdatedAt ∧
    (p.Assignee = none → n.Assignee = r.Assignee) ∧
    (∀ v, p.Assignee = some v → n.Assignee = v) ∧
    (p.AssigneeGroup = none → n.AssigneeGroup = r.AssigneeGroup) ∧
    (∀ v, p.AssigneeGroup = some v → n.AssigneeGroup = v) ∧
    (p.Note = none → n.Note = r.Note) ∧
    (∀ v, p.Note = some v → n.Note = v) ∧
    (p.EstimatedResolveAt = none → n.EstimatedAt = r.EstimatedAt) ∧
    (∀ v, p.EstimatedResolveAt = some v → n.EstimatedAt = v) ∧
    (p.SyncInternal = none → n.SyncInternal = r.SyncInternal) ∧
    (∀ v, p.SyncInternal = some v → n.SyncInternal = v) ∧
    (p.Priority = none → n.Priority = r.Priority) ∧
    (∀ v, p.Priority = some v → n.Priority = v) ∧
    (p.DueAt = none → n.DueAt = r.DueAt) ∧
    (∀ v, p.DueAt = some v → n.DueAt = v))

/-- A one-row table holding a stored row with a due date and note-free
overlay, for the patch-frame witness. -/
def patchTbl : Table := [boardRow "1" "2024-01-05" "x" "2024-01-01"]

/-- The merged record returned by patching `patchTbl` with `patch9`. -/
def patchedIt : Item :=
  { toRow := applyPatch patch9 (boardRow "1" "2024-01-05" "x" "2024-01-01"),
    OverdueDays := computeOverdueDays 0 (applyPatch patch9 (boardRow "1" "2024-01-05" "x" "2024-01-01")).DueAt }

/-- The table state after patching `patchTbl` with `patch9`. -/
def patchedTbl : Table :=
  patchTbl.map (fun row =>
    if matchesKey "issue" "o/r" "1" row then
      writeOverlay (applyPatch patch9 (boardRow "1" "2024-01-05" "x" "2024-01-01")) row
    else row)

/-- A fetched raw record carrying no usable identity key. -/
def badRaw : RawRecord := [("title", JVal.s "no id")]

/-- A fetched raw record with numeric identity `i` and a title. -/
def goodRaw (i : Int) : RawRecord := [("number", JVal.n i), ("title", JVal.s "t")]

end Tracker

namespace Tracker

theorem upsertLoop_snd (t : Table) (l : List CoreItem) :
    (upsertLoop t l).2 = l.foldl applyItem t := by
  induction l generalizing t with
  | nil => rfl
  | cons a l ih =>
    simp only [upsertLoop, applyItem, List.foldl_cons]
    by_cases h : validCore a <;> simp [h, ih]

theorem upsertLoop_fst (t : Table) (l : List CoreItem) :
    (upsertLoop t l).1 = l.countP validCore := by
  induction l generalizing t with
  | nil => rfl
  | cons a l ih =>
    simp only [upsertLoop, List.countP_cons]
    by_cases h : validCore a <;> simp [h, ih]

theorem identityOf_setExt (r : Row) (a : CoreItem) : identityOf (setExt r a) = identityOf r := rfl

theorem frameOf_setExt (r : Row) (a : CoreItem) : frameOf (setExt r a) = frameOf r := rfl

theorem matchesCore_iff (a : CoreItem) (r : Row) :
    matchesCore a r = true ↔ identityOf r = keyOfCore a := by
  simp [matchesCore, identityOf, keyOfCore, Prod.ext_iff, and_assoc]

/-- One upsert statement leaves the identity and overlay projection of the
table a prefix of the new one: updates preserve it pointwise, inserts
append. -/
theorem frame_upsertOne (t : Table) (a : CoreItem) :
    ∃ rest, (upsertOne t a).map frameOf = t.map frameOf ++ rest := by
  unfold upsertOne
  by_cases h : hasKey t a
  · refine ⟨[], ?_⟩
    simp only [h, if_true, List.map_map, List.append_nil]
    apply List.map_congr_left
    intro r _
    by_cases hm : matchesCore a r <;> simp [hm, frameOf_setExt]
  · exact ⟨[frameOf (newRow a)], by simp [h]⟩

theorem frame_foldl (l : List CoreItem) (t : Table) :
    ∃ rest, (l.foldl applyItem t).map frameOf = t.map frameOf ++ rest := by
  induction l generalizing t with
  | nil => exact ⟨[], by simp⟩
  | cons a l ih =>
    simp only [List.foldl_cons, applyItem]
    by_cases h : validCore a
    · simp only [h, if_true]
      obtain ⟨r1, h1⟩ := frame_upsertOne t a
      obtain ⟨r2, h2⟩ := ih (upsertOne t a)
      exact ⟨r1 ++ r2, by rw [h2, h1, List.append_assoc]⟩
    · simpa [h] using ih t

/-- C1. For every stored row and every sync batch, `UpsertCore` keeps
every pre-existing row at its position with its identity triple and all
seven overlay columns (assignee, assignee_group, note,
estimated_resolve_at, sync_internal, priority, due_at) byte-identical —
including values previously set by a patch — so a sync can touch only
the external columns of existing rows. -/
theorem upsert_preserves_identity_overlay (t : Table) (items : List CoreItem) :
    (((UpsertCore t items).2).map frameOf).take t.length = t.map frameOf := by
  obtain ⟨rest, h⟩ := frame_foldl items t
  rw [UpsertCore, upsertLoop_snd, h]
  rw [show t.length = (t.map frameOf).length by simp]
  exact List.take_left _ _

theorem setExt_setExt (r : Row) (a b : CoreItem) : setExt (setExt r a) b = setExt r b := rfl

theorem setExt_newRow_self (a : CoreItem) : setExt (newRow a) a = newRow a := rfl

theorem identityOf_newRow (a : CoreItem) : identityOf (newRow a) = keyOfCore a := rfl

theorem extLast_cons (a : CoreItem) (l : List CoreItem) (k : String × String × String) :
    extLast (a :: l) k =
      match extLast l k with
      | some b => some b
      | none => if validCore a ∧ keyOfCore a = k then some a else none := rfl

theorem extLast_cons_invalid (a : CoreItem) (l : List CoreItem) (k : String × String × String)
    (ha : ¬ validCore a = true) : extLast (a :: l) k = extLast l k := by
  rw [extLast_cons]
  cases hE : extLast l k with
  | some b => rfl
  | none => simp [ha]

theorem rowUpdate_nil (r : Row) : rowUpdate [] r = r := rfl

theorem rowUpdate_cons_invalid (a : CoreItem) (l : List CoreItem) (r : Row)
    (ha : ¬ validCore a = true) : rowUpdate (a :: l) r = rowUpdate l r := by
  unfold rowUpdate
  rw [extLast_cons_invalid a l _ ha]

theorem rowUpdate_cons_valid (a : CoreItem) (l : List CoreItem) (r : Row)
    (ha : validCore a = true) :
    rowUpdate (a :: l) r = rowUpdate l (if matchesCore a r then setExt r a else r) := by
  by_cases hm : matchesCore a r = true
  · have hk : identityOf r = keyOfCore a := (matchesCore_iff a r).1 hm
    rw [if_pos hm]
    unfold rowUpdate
    rw [identityOf_setExt, extLast_cons]
    cases hE : extLast l (identityOf r) with
    | some b => simp [setExt_setExt]
    | none => simp [ha, hk.symm]
  · have hk : ¬ identityOf r = keyOfCore a := fun h => hm ((matchesCore_iff a r).2 h)
    rw [if_neg hm]
    unfold rowUpdate
    rw [extLast_cons]
    cases hE : extLast l (identityOf r) with
    | some b => rfl
    | none =>
      rw [if_neg]
      intro h
      exact hk h.2.symm

theorem matchesCore_congr (b : CoreItem) (r r' : Row) (h : identityOf r = identityOf r') :
    matchesCore b r = matchesCore b r' := by
  by_cases hm : matchesCore b r'
  · exact hm ▸ (matchesCore_iff b r).2 (h.trans ((matchesCore_iff b r').1 hm))
  · rcases hb : matchesCore b r with _ | _
    · simp [hm]
    · exact absurd ((matchesCore_iff b r').2 (h ▸ (matchesCore_iff b r).1 hb)) hm

theorem hasKey_map_of_identity (t : Table) (f : Row → Row) (b : CoreItem)
    (hf : ∀ r, identityOf (f r) = identityOf r) :
    hasKey (t.map f) b = hasKey t b := by
  induction t with
  | nil => rfl
  | cons r t ih =>
    unfold hasKey at ih ⊢
    simp only [List.map_cons, List.any_cons, ih]
    rw [matchesCore_congr b (f r) r (hf r)]

theorem identityOf_upd (a : CoreItem) (r : Row) :
    identityOf (if matchesCore a r then setExt r a else r) = identityOf r := by
  by_cases hm : matchesCore a r = true
  · rw [if_pos hm, identityOf_setExt]
  · rw [if_neg hm]

theorem hasKey_upsertOne (t : Table) (a b : CoreItem) (h : hasKey t b = true) :
    hasKey (upsertOne t a) b = true := by
  unfold upsertOne
  by_cases hk : hasKey t a = true
  · rw [if_pos hk, hasKey_map_of_identity t _ b (identityOf_upd a)]
    exact h
  · rw [if_neg hk]
    unfold hasKey at h ⊢
    rw [List.any_append, h, Bool.true_or]

theorem hasKey_applyItem (t : Table) (a b : CoreItem) (h : hasKey t b = true) :
    hasKey (applyItem t a) b = true := by
  unfold applyItem
  by_cases hv : validCore a = true
  · rw [if_pos hv]; exact hasKey_upsertOne t a b h
  · rw [if_neg hv]; exact h

theorem hasKey_upsertOne_self (t : Table) (a : CoreItem) :
    hasKey (upsertOne t a) a = true := by
  unfold upsertOne
  by_cases hk : hasKey t a = true
  · rw [if_pos hk, hasKey_map_of_identity t _ a (identityOf_upd a)]
    exact hk
  · rw [if_neg hk]
    unfold hasKey
    rw [List.any_append]
    have hm : matchesCore a (newRow a) = true := (matchesCore_iff a (newRow a)).2 (identityOf_newRow a)
    simp [hm]

theorem hasKey_foldl_mono (l : List CoreItem) (t : Table) (b : CoreItem)
    (h : hasKey t b = true) : hasKey (l.foldl applyItem t) b = true := by
  induction l generalizing t with
  | nil => exact h
  | cons a l ih => exact ih (applyItem t a) (hasKey_applyItem t a b h)

theorem hasKey_foldl_of_mem (l : List CoreItem) (t : Table) (a : CoreItem)
    (hmem : a ∈ l) (hv : validCore a = true) :
    hasKey (l.foldl applyItem t) a = true := by
  induction l generalizing t with
  | nil => cases hmem
  | cons b l ih =>
    rcases List.mem_cons.1 hmem with rfl | hmem'
    · refine hasKey_foldl_mono l (applyItem t a) a ?_
      unfold applyItem
      rw [if_pos hv]
      exact hasKey_upsertOne_self t a
    · exact ih (applyItem t b) hmem'

theorem hasKey_of_mem (t : Table) (a : CoreItem) (r : Row) (hr : r ∈ t)
    (hm : matchesCore a r = true) : hasKey t a = true := by
  unfold hasKey
  rw [List.any_eq_true]
  exact ⟨r, hr, hm⟩

/-- When every valid record of the batch already has its identity in the
table, the batch acts as a pure per-row overwrite of external columns. -/
theorem foldl_eq_map_rowUpdate (l : List CoreItem) : ∀ (t : Table),
    (∀ a ∈ l, validCore a = true → hasKey t a = true) →
    l.foldl applyItem t = t.map (rowUpdate l) := by
  induction l with
  | nil =>
    intro t _
    simp only [List.foldl_nil]
    exact ((List.map_congr_left (fun r _ => rowUpdate_nil r)).trans (List.map_id t)).symm
  | cons a l ih =>
    intro t h
    simp only [List.foldl_cons]
    by_cases hv : validCore a = true
    · have hk : hasKey t a = true := h a (List.mem_cons_self a l) hv
      have happ : applyItem t a = t.map (fun r => if matchesCore a r then setExt r a else r) := by
        unfold applyItem upsertOne
        rw [if_pos hv, if_pos hk]
      rw [happ, ih (t.map _) ?_]
      · rw [List.map_map]
        exact List.map_congr_left fun r _ => (rowUpdate_cons_valid a l r hv).symm
      · intro b hb hvb
        rw [hasKey_map_of_identity t _ b (identityOf_upd a)]
        exact h b (List.mem_cons_of_mem a hb) hvb
    · have happ : applyItem t a = t := by unfold applyItem; rw [if_neg hv]
      rw [happ, ih t (fun b hb hvb => h b (List.mem_cons_of_mem a hb) hvb)]
      exact List.map_congr_left fun r _ => (rowUpdate_cons_invalid a l r hv).symm

/-- A row whose identity triple is hit by no valid record of the batch
passes through the batch untouched (it was already in the table). -/
theorem mem_of_foldl_untouched (l : List CoreItem) : ∀ (t : Table) (r : Row),
    r ∈ l.foldl applyItem t → extLast l (identityOf r) = none → r ∈ t := by
  induction l with
  | nil => exact fun t r hr _ => hr
  | cons a l ih =>
    intro t r hr hE
    rw [List.foldl_cons] at hr
    rw [extLast_cons] at hE
    cases hEl : extLast l (identityOf r) with
    | some b => rw [hEl] at hE; cases hE
    | none =>
      rw [hEl] at hE
      have hcond : ¬ (validCore a = true ∧ keyOfCore a = identityOf r) := by
        intro hc
        rw [if_pos hc] at hE
        cases hE
      have hr' : r ∈ applyItem t a := ih (applyItem t a) r hr hEl
      unfold applyItem at hr'
      by_cases hv : validCore a = true
      · rw [if_pos hv] at hr'
        unfold upsertOne at hr'
        by_cases hk : hasKey t a = true
        · rw [if_pos hk] at hr'
          obtain ⟨r0, hr0, heq⟩ := List.mem_map.1 hr'
          by_cases hm : matchesCore a r0 = true
          · rw [if_pos hm] at heq
            exfalso
            apply hcond
            refine ⟨hv, ?_⟩
            rw [← heq, identityOf_setExt]
            exact ((matchesCore_iff a r0).1 hm).symm
          · rw [if_neg hm] at heq
            exact heq ▸ hr0
        · rw [if_neg hk] at hr'
          rcases List.mem_append.1 hr' with h1 | h2
          · exact h1
          · exfalso
            apply hcond
            have hrn : r = newRow a := List.mem_singleton.1 h2
            exact ⟨hv, by rw [hrn, identityOf_newRow]⟩
      · rw [if_neg hv] at hr'
        exact hr'

/-- After a batch is applied, every stored row already carries the
external columns of the batch's last matching record. -/
theorem setExt_extLast_foldl (l : List CoreItem) : ∀ (t : Table) (r : Row) (c : CoreItem),
    r ∈ l.foldl applyItem t → extLast l (identityOf r) = some c → setExt r c = r := by
  induction l with
  | nil => intro t r c _ hE; cases hE
  | cons a l ih =>
    intro t r c hr hE
    rw [List.foldl_cons] at hr
    rw [extLast_cons] at hE
    cases hEl : extLast l (identityOf r) with
    | some b =>
      rw [hEl] at hE
      have hbc : b = c := by injection hE
      exact hbc ▸ ih (applyItem t a) r b hr hEl
    | none =>
      rw [hEl] at hE
      by_cases hc : validCore a = true ∧ keyOfCore a = identityOf r
      · rw [if_pos hc] at hE
        have hac : a = c := by injection hE
        subst hac
        have hr' : r ∈ applyItem t a := mem_of_foldl_untouched l (applyItem t a) r hr hEl
        unfold applyItem at hr'
        rw [if_pos hc.1] at hr'
        unfold upsertOne at hr'
        by_cases hk : hasKey t a = true
        · rw [if_pos hk] at hr'
          obtain ⟨r0, hr0, heq⟩ := List.mem_map.1 hr'
          by_cases hm : matchesCore a r0 = true
          · rw [if_pos hm] at heq
            rw [← heq, setExt_setExt]
          · rw [if_neg hm] at heq
            exfalso
            apply hm
            apply (matchesCore_iff a r0).2
            have : identityOf r = keyOfCore a := hc.2.symm
            rw [heq]
            exact this
        · rw [if_neg hk] at hr'
          rcases List.mem_append.1 hr' with h1 | h2
          · exfalso
            apply hk
            apply hasKey_of_mem t a r h1
            exact (matchesCore_iff a r).2 hc.2.symm
          · have hrn : r = newRow a := List.mem_singleton.1 h2
            rw [hrn, setExt_newRow_self]
      · rw [if_neg hc] at hE
        cases hE

/-- C2. Applying the same batch of normalized external records twice
through `UpsertCore` yields a table state after the second application
identical to the state after the first: the upsert is a pure
overwrite-by-key of the external columns, hence idempotent. -/
theorem upsert_idempotent (t : Table) (items : List CoreItem) :
    (UpsertCore (UpsertCore t items).2 items).2 = (UpsertCore t items).2 := by
  rw [UpsertCore, UpsertCore, upsertLoop_snd, upsertLoop_snd]
  rw [foldl_eq_map_rowUpdate items (items.foldl applyItem t)
    (fun a ha hv => hasKey_foldl_of_mem items t a ha hv)]
  have hfix : ∀ r ∈ items.foldl applyItem t, rowUpdate items r = r := by
    intro r hr
    unfold rowUpdate
    cases hE : extLast items (identityOf r) with
    | some c => exact setExt_extLast_foldl items t r c hr hE
    | none => rfl
  exact (List.map_congr_left hfix).trans (List.map_id _)

/-- C10. `UpsertCore` counts every valid record occurrence it writes,
including repeated occurrences of the same identity triple in one
batch, so the returned count can exceed the number of distinct rows
inserted or updated: a batch holding the same record twice reports 2
writes but leaves a single row. -/
theorem upsert_count_counts_occurrences :
    (∀ (t : Table) (items : List CoreItem), (UpsertCore t items).1 = items.countP validCore) ∧
    (UpsertCore [] [sampleCore, sampleCore]).1 = 2 ∧
    ((UpsertCore [] [sampleCore, sampleCore]).2).length = 1 := by
  refine ⟨fun t items => upsertLoop_fst t items, by decide, by decide⟩

/-- C3 counterexample: the backend overdue derivation
(`computeOverdueDays`, used by listing and patch responses) receives
only the due date and returns 0 whenever it is absent — with due_at
absent, created_at = T = 1970-01-01 and now = T + 15 days it yields 0,
not the 1 the claim requires. -/
theorem computeOverdueDays_no_created_fallback :
    computeOverdueDays (15 * 86400) "" = 0 ∧ (0 : Int) ≠ 1 :=
  ⟨rfl, by decide⟩

/-- C3 (amended): the web board's derivation `derivedOverdueDays` is
the one that uses created_at + 14 days as the target when due-at is
absent (or does not parse): its result is then the floored day
difference to that target, and with created_at = T and
now = T + 15 days it equals 1. The backend's `computeOverdueDays` has
no such fallback: with due_at absent it returns 0 regardless of now. -/
theorem derivedOverdueDays_fallback_fourteen_days :
    (∀ (c now : Int),
      derivedOverdueDays none (some c) now = Int.fdiv (now - (c + 14 * msPerDay)) msPerDay) ∧
    (∀ T : Int, derivedOverdueDays none (some T) (T + 15 * msPerDay) = 1) ∧
    (∀ now : Int, computeOverdueDays now "" = 0) := by
  refine ⟨fun c now => rfl, fun T => ?_, fun now => rfl⟩
  show Int.fdiv (T + 15 * msPerDay - (T + 14 * msPerDay)) msPerDay = 1
  have h : T + 15 * msPerDay - (T + 14 * msPerDay) = msPerDay := by ring
  rw [h]
  decide

/-- C4 counterexample: with due_at = 1970-01-10 and now three days
before it, `computeOverdueDays` returns 0 while the claimed signed
floor is -3: a target in the future is clamped to zero, not reported
negative. -/
theorem computeOverdueDays_clamps_at_zero :
    computeOverdueDays (6 * 86400) "1970-01-10" = 0 ∧
    Int.fdiv (6 * 86400 - 9 * 86400) 86400 = -3 ∧ (0 : Int) ≠ -3 :=
  ⟨rfl, by decide, by decide⟩

/-- C4 (amended): for every due date that parses and every now,
`computeOverdueDays` equals the floored whole-day difference clamped
below at zero, `max 0 ⌊(now - target) / 1 day⌋`: positive exactly when
overdue, but never negative — a future target reads 0 (with
due_at = T and now = T + 3 days the result is 3, see the witness). -/
theorem computeOverdueDays_eq_clamped_floor (dueAt : String) (t now : Int)
    (h : parseDue dueAt = some t) :
    computeOverdueDays now dueAt = max 0 (Int.fdiv (now - t) 86400) := by
  have hne : dueAt ≠ "" := by
    intro he
    rw [he] at h
    exact Option.noConfusion h
  unfold computeOverdueDays
  rw [if_neg hne, h]
  show (if now < t then (0 : Int) else Int.ofNat ((now - t).toNat / 86400)) =
    max 0 (Int.fdiv (now - t) 86400)
  by_cases hlt : now < t
  · rw [if_pos hlt]
    have h2 : Int.fdiv (now - t) 86400 ≤ 0 := by
      rw [Int.fdiv_eq_ediv (now - t) (by norm_num : (0 : Int) ≤ 86400)]
      exact (Int.ediv_neg' (by omega) (by norm_num)).le
    exact (max_eq_left h2).symm
  · rw [if_neg hlt]
    have hge : (0 : Int) ≤ now - t := by omega
    have h1 : (Int.ofNat ((now - t).toNat / 86400)) = Int.fdiv (now - t) 86400 := by
      have h0 := Int.ofNat_fdiv ((now - t).toNat) 86400
      rw [Int.toNat_of_nonneg hge] at h0
      exact_mod_cast h0
    have h2 : 0 ≤ Int.fdiv (now - t) 86400 := Int.fdiv_nonneg hge (by norm_num)
    rw [h1, max_eq_right h2]

/-- C4 witness: a parsed due date three days in the past reads as 3
overdue days, matching the clamped-floor characterization. -/
theorem computeOverdueDays_eq_clamped_floor_witness :
    parseDue "1970-01-10" = some 777600 ∧
    computeOverdueDays (12 * 86400) "1970-01-10" = max 0 (Int.fdiv (12 * 86400 - 777600) 86400) ∧
    computeOverdueDays (12 * 86400) "1970-01-10" = 3 :=
  ⟨rfl, computeOverdueDays_eq_clamped_floor "1970-01-10" 777600 (12 * 86400) rfl, rfl⟩

/-- C9. A patch addressed to an identity triple matching no stored row
returns the distinguished not-found error; the error is signalled
before the UPDATE, so nothing is written to the table. -/
theorem patch_not_found_signal (now : Int) (t : Table) (kind repo key : String)
    (p : CustomPatch) (h : ∀ r ∈ t, matchesKey kind repo key r = false) :
    PatchCustom now t kind repo key p = Except.error StoreErr.notFound ∧
    IsNotFound StoreErr.notFound = true := by
  refine ⟨?_, rfl⟩
  unfold PatchCustom
  have hf : t.find? (matchesKey kind repo key) = none :=
    List.find?_eq_none.2 (fun x hx => by rw [h x hx]; exact fun hc => Bool.noConfusion hc)
  rw [hf]

/-- C9 witness: patching an identity never seen by sync (empty table)
is signalled as not-found. -/
theorem patch_not_found_signal_witness :
    PatchCustom 0 [] "issue" "o/r" "1" emptyPatch = Except.error StoreErr.notFound ∧
    IsNotFound StoreErr.notFound = true :=
  patch_not_found_signal 0 [] "issue" "o/r" "1" emptyPatch (fun r hr => absurd hr (List.not_mem_nil r))

/-- The patch-merge chain in closed form: each field is the patch value
when present, the stored value otherwise. -/
theorem applyPatch_eq (p : CustomPatch) (r : Row) :
    applyPatch p r =
      { r with
        Assignee := p.Assignee.getD r.Assignee,
        AssigneeGroup := p.AssigneeGroup.getD r.AssigneeGroup,
        Note := p.Note.getD r.Note,
        EstimatedAt := p.EstimatedResolveAt.getD r.EstimatedAt,
        SyncInternal := p.SyncInternal.getD r.SyncInternal,
        Priority := p.Priority.getD r.Priority,
        DueAt := p.DueAt.getD r.DueAt } := by
  obtain ⟨pa, pg, pn, pe, ps, pp, pd⟩ := p
  cases pa <;> cases pg <;> cases pn <;> cases pe <;> cases ps <;> cases pp <;> cases pd <;> rfl

theorem setExt_priority (r : Row) (a : CoreItem) : (setExt r a).Priority = r.Priority := rfl

/-- Upserting preserves an all-priorities-zero table: updates never
touch the priority column and inserts use the schema default 0. -/
theorem priority_foldl_zero (l : List CoreItem) : ∀ (t : Table),
    (∀ r ∈ t, r.Priority = 0) → ∀ r ∈ l.foldl applyItem t, r.Priority = 0 := by
  induction l with
  | nil => exact fun t h => h
  | cons a l ih =>
    intro t h r hr
    rw [List.foldl_cons] at hr
    refine ih (applyItem t a) ?_ r hr
    intro r' hr'
    unfold applyItem at hr'
    by_cases hv : validCore a = true
    · rw [if_pos hv] at hr'
      unfold upsertOne at hr'
      by_cases hk : hasKey t a = true
      · rw [if_pos hk] at hr'
        obtain ⟨r0, hr0, heq⟩ := List.mem_map.1 hr'
        by_cases hm : matchesCore a r0 = true
        · rw [if_pos hm] at heq
          rw [← heq, setExt_priority]
          exact h r0 hr0
        · rw [if_neg hm] at heq
          exact heq ▸ h r0 hr0
      · rw [if_neg hk] at hr'
        rcases List.mem_append.1 hr' with h1 | h2
        · exact h r' h1
        · rw [List.mem_singleton.1 h2]
          rfl
    · rw [if_neg hv] at hr'
      exact h r' hr'

/-- C6 counterexample: syncing a record into a fresh store creates a
row with priority 0 — the most urgent level, not the lowest urgency —
and a patch submitting the out-of-range priority 9 stores 9 verbatim,
leaving the stored priority outside the closed set {0, 1, 2, 3} and not
normalized to low (3). -/
theorem priority_not_normalized_cex :
    table9.map Row.Priority = [0] ∧ (0 : Int) ≠ 3 ∧
    PatchCustom 0 table9 "issue" "o/r" "1" patch9 = Except.ok (it9, t9') ∧
    t9'.map Row.Priority = [9] ∧ (9 : Int) ∉ ([0, 1, 2, 3] : List Int) :=
  ⟨rfl, by decide, rfl, rfl, by decide⟩

/-- C6 (amended): a row created at first sight of an identity during
sync has priority 0 (the most urgent end of the scale, since lower
means more urgent), and a patch stores whatever integer priority it
carries verbatim — both in the returned merged record and in every
addressed stored row — with no out-of-range normalization. -/
theorem priority_default_zero_and_patch_verbatim :
    (∀ (items : List CoreItem) (r : Row), r ∈ (UpsertCore [] items).2 → r.Priority = 0) ∧
    (∀ (now : Int) (t : Table) (kind repo key : String) (p : CustomPatch) (v : Int)
        (it : Item) (t' : Table),
      p.Priority = some v → PatchCustom now t kind repo key p = Except.ok (it, t') →
      it.Priority = v ∧ ∀ r' ∈ t', matchesKey kind repo key r' = true → r'.Priority = v) := by
  constructor
  · intro items r hr
    rw [UpsertCore, upsertLoop_snd] at hr
    exact priority_foldl_zero items [] (fun r' hr' => absurd hr' (List.not_mem_nil r')) r hr
  · intro now t kind repo key p v it t' hp hok
    unfold PatchCustom at hok
    cases hf : t.find? (matchesKey kind repo key) with
    | none =>
      rw [hf] at hok
      cases hok
    | some r =>
      rw [hf] at hok
      injection hok with hpair
      rw [Prod.mk.injEq] at hpair
      obtain ⟨hit, ht'⟩ := hpair
      have hpr : (applyPatch p r).Priority = v := by
        rw [applyPatch_eq, hp]
        rfl
      constructor
      · rw [← hit]
        exact hpr
      · intro r' hr' hm
        rw [← ht'] at hr'
        obtain ⟨row, _, heq⟩ := List.mem_map.1 hr'
        by_cases hmk : matchesKey kind repo key row = true
        · rw [if_pos hmk] at heq
          rw [← heq]
          exact hpr
        · rw [if_neg hmk] at heq
          rw [← heq] at hm
          exact absurd hm hmk

/-- C6 amended witness: the freshly synced fixture row carries
priority 0, and patching it with priority 9 returns a record carrying
priority 9. -/
theorem priority_default_zero_and_patch_verbatim_witness :
    (newRow sampleCore).Priority = 0 ∧ it9.Priority = 9 :=
  ⟨priority_default_zero_and_patch_verbatim.1 [sampleCore] (newRow sampleCore) (by decide),
   (priority_default_zero_and_patch_verbatim.2 0 table9 "issue" "o/r" "1" patch9 9 it9 t9'
      rfl rfl).1⟩

theorem matchesKey_iff (kind repo key : String) (r : Row) :
    matchesKey kind repo key r = true ↔ identityOf r = (kind, repo, key) := by
  simp [matchesKey, identityOf, Prod.ext_iff, and_assoc]

/-- Under the table's UNIQUE(kind, repo_full_name, external_key)
constraint, two stored rows with the same identity triple are the same
row. -/
theorem mem_unique_identity {t : Table}
    (hU : t.Pairwise (fun r s => identityOf r ≠ identityOf s)) {a b : Row}
    (ha : a ∈ t) (hb : b ∈ t) (h : identityOf a = identityOf b) : a = b := by
  induction t with
  | nil => cases ha
  | cons x l ih =>
    rw [List.pairwise_cons] at hU
    rcases List.mem_cons.1 ha with rfl | ha' <;> rcases List.mem_cons.1 hb with rfl | hb'
    · rfl
    · exact absurd h (hU.1 b hb')
    · exact absurd h.symm (hU.1 a ha')
    · exact ih hU.2 ha' hb'

/-- C7. For every stored table whose rows have distinct identity
triples (the UNIQUE constraint) and every successful patch, each row of
the identity not addressed by the patch is byte-identical afterwards,
and on the addressed row the identity and external columns are
unchanged while every overlay field absent from the patch keeps its
prior value and every present field takes exactly the patched value —
in particular a patch with only priority set leaves assignee, group,
note, estimated-resolve, sync flag and due-at untouched. -/
theorem patch_frame_absent_fields (now : Int) (t : Table) (kind repo key : String)
    (p : CustomPatch) (it : Item) (t' : Table)
    (hU : t.Pairwise (fun r s => identityOf r ≠ identityOf s))
    (hok : PatchCustom now t kind repo key p = Except.ok (it, t')) :
    List.Forall₂ (patchFrameRel kind repo key p) t t' := by
  unfold PatchCustom at hok
  cases hf : t.find? (matchesKey kind repo key) with
  | none =>
    rw [hf] at hok
    cases hok
  | some r0 =>
    rw [hf] at hok
    injection hok with hpair
    rw [Prod.mk.injEq] at hpair
    obtain ⟨hit, ht'⟩ := hpair
    rw [← ht']
    have hr0mem : r0 ∈ t := List.mem_of_find?_eq_some hf
    have hr0match : matchesKey kind repo key r0 = true := List.find?_some hf
    rw [List.forall₂_map_right_iff, List.forall₂_same]
    intro row hrow
    by_cases hmk : matchesKey kind repo key row = true
    · rw [if_pos hmk]
      have hid : identityOf row = identityOf r0 := by
        rw [(matchesKey_iff kind repo key row).1 hmk, (matchesKey_iff kind repo key r0).1 hr0match]
      have hrr : row = r0 := mem_unique_identity hU hrow hr0mem hid
      subst hrr
      refine ⟨fun hc => absurd hmk (by rw [hc]; exact fun h => Bool.noConfusion h), fun _ => ?_⟩
      refine ⟨rfl, rfl, rfl, rfl, rfl, rfl, rfl,
        ?_, ?_, ?_, ?_, ?_, ?_, ?_, ?_, ?_, ?_, ?_, ?_, ?_, ?_⟩ <;>
        first
          | (intro h; rw [applyPatch_eq, h]; rfl)
          | (intro v h; rw [applyPatch_eq, h]; rfl)
    · rw [if_neg hmk]
      exact ⟨fun _ => rfl, fun hc => absurd hc hmk⟩

/-- C7 witness: patching the one-row fixture table with a priority-only
patch satisfies the frame relation — every other overlay field is
byte-identical to before. -/
theorem patch_frame_absent_fields_witness :
    List.Forall₂ (patchFrameRel "issue" "o/r" "1" patch9) patchTbl patchedTbl :=
  patch_frame_absent_fields 0 patchTbl "issue" "o/r" "1" patch9 patchedIt patchedTbl
    (List.pairwise_singleton _ _) rfl

theorem strLt_trichotomy (l : List Char) : ∀ (m : List Char),
    strLt l m = true ∨ strLt m l = true ∨ l = m := by
  induction l with
  | nil =>
    intro m
    cases m with
    | nil => exact Or.inr (Or.inr rfl)
    | cons d ds => exact Or.inl rfl
  | cons c cs ih =>
    intro m
    cases m with
    | nil => exact Or.inr (Or.inl rfl)
    | cons d ds =>
      by_cases hcd : c = d
      · subst hcd
        rcases ih ds with h | h | h
        · exact Or.inl (by simp [strLt, h])
        · exact Or.inr (Or.inl (by simp [strLt, h]))
        · exact Or.inr (Or.inr (by rw [h]))
      · rcases lt_trichotomy c d with h | h | h
        · exact Or.inl (by simp [strLt, hcd, h])
        · exact absurd h hcd
        · have hne : ¬ d = c := fun he => hcd he.symm
          exact Or.inr (Or.inl (by simp [strLt, hne, h]))

theorem strLe_total (l : List Char) : ∀ (m : List Char),
    strLe l m = true ∨ strLe m l = true := by
  induction l with
  | nil => exact fun m => Or.inl rfl
  | cons c cs ih =>
    intro m
    cases m with
    | nil => exact Or.inr rfl
    | cons d ds =>
      by_cases hcd : c = d
      · subst hcd
        rcases ih ds with h | h
        · exact Or.inl (by simp [strLe, h])
        · exact Or.inr (by simp [strLe, h])
      · rcases lt_trichotomy c d with h | h | h
        · exact Or.inl (by simp [strLe, hcd, h])
        · exact absurd h hcd
        · have hne : ¬ d = c := fun he => hcd he.symm
          exact Or.inr (by simp [strLe, hne, h])

theorem strLt_trans (l : List Char) : ∀ (m n : List Char),
    strLt l m = true → strLt m n = true → strLt l n = true := by
  induction l with
  | nil =>
    intro m n h1 h2
    cases n with
    | nil =>
      exfalso
      cases m with
      | nil => exact Bool.noConfusion h1
      | cons d ds => simp [strLt] at h2
    | cons e es => rfl
  | cons c cs ih =>
    intro m n h1 h2
    cases m with
    | nil => simp [strLt] at h1
    | cons d ds =>
      cases n with
      | nil => simp [strLt] at h2
      | cons e es =>
        simp only [strLt] at h1 h2 ⊢
        by_cases hcd : c = d
        · subst hcd
          rw [if_pos rfl] at h1
          by_cases hce : c = e
          · subst hce
            rw [if_pos rfl] at h2 ⊢
            exact ih ds es h1 h2
          · rw [if_neg hce] at h2 ⊢
            exact h2
        · rw [if_neg hcd] at h1
          by_cases hde : d = e
          · subst hde
            rw [if_neg hcd]
            exact h1
          · rw [if_neg hde] at h2
            have hce : c < e := lt_trans (of_decide_eq_true h1) (of_decide_eq_true h2)
            rw [if_neg (ne_of_lt hce)]
            exact decide_eq_true hce

theorem strLe_trans (l : List Char) : ∀ (m n : List Char),
    strLe l m = true → strLe m n = true → strLe l n = true := by
  induction l with
  | nil => exact fun m n _ _ => rfl
  | cons c cs ih =>
    intro m n h1 h2
    cases m with
    | nil => simp [strLe] at h1
    | cons d ds =>
      cases n with
      | nil => simp [strLe] at h2
      | cons e es =>
        simp only [strLe] at h1 h2 ⊢
        by_cases hcd : c = d
        · subst hcd
          rw [if_pos rfl] at h1
          by_cases hce : c = e
          · subst hce
            rw [if_pos rfl] at h2 ⊢
            exact ih ds es h1 h2
          · rw [if_neg hce] at h2 ⊢
            exact h2
        · rw [if_neg hcd] at h1
          by_cases hde : d = e
          · subst hde
            rw [if_neg hcd]
            exact h1
          · rw [if_neg hde] at h2
            have hce : c < e := lt_trans (of_decide_eq_true h1) (of_decide_eq_true h2)
            rw [if_neg (ne_of_lt hce)]
            exact decide_eq_true hce

instance : IsTotal Row listBefore := by
  constructor
  intro a b
  rcases strLt_trichotomy b.DueAt.toList a.DueAt.toList with h | h | h
  · exact Or.inl (Or.inl h)
  · exact Or.inr (Or.inl h)
  · have hs : b.DueAt = a.DueAt := by
      have := congrArg List.asString h
      rwa [String.asString_toList, String.asString_toList] at this
    rcases strLe_total b.UpdatedAt.toList a.UpdatedAt.toList with h2 | h2
    · exact Or.inl (Or.inr ⟨hs, h2⟩)
    · exact Or.inr (Or.inr ⟨hs.symm, h2⟩)

instance : IsTrans Row listBefore := by
  constructor
  intro a b c hab hbc
  rcases hab with h1 | ⟨h1, h1'⟩ <;> rcases hbc with h2 | ⟨h2, h2'⟩
  · exact Or.inl (strLt_trans _ _ _ h2 h1)
  · exact Or.inl (by rw [h2]; exact h1)
  · exact Or.inl (by rw [← h1]; exact h2)
  · exact Or.inr ⟨h2.trans h1, strLe_trans _ _ _ h2' h1'⟩

theorem map_toRow_mk (now : Int) (l : List Row) :
    (l.map (fun r =>
      ({ toRow := r, OverdueDays := computeOverdueDays now r.DueAt } : Item))).map Item.toRow = l := by
  rw [List.map_map]
  exact (List.map_congr_left (fun r _ => rfl)).trans (List.map_id l)

/-- C5 counterexample: a table with due-at values 2024-01-10,
2024-01-05 and absent (created 2023-12-25) lists as 10, 05, absent —
raw string order with the empty due-at last. The absent row's effective
due date is 2023-12-25 + 14 days = 2024-01-08, later than 2024-01-05,
so the listing is not in descending effective-due-date order as the
claim requires. -/
theorem listItems_not_effective_due_order :
    (ListItems 0 ⟨"", ""⟩ [boardRow "1" "2024-01-10" "x" "2024-01-01",
        boardRow "2" "2024-01-05" "x" "2024-01-01",
        boardRow "3" "" "x" "2023-12-25"]).map (fun it => it.ExternalKey) = ["1", "2", "3"] ∧
    specEffectiveDue (boardRow "2" "2024-01-05" "x" "2024-01-01") = some 1704412800 ∧
    specEffectiveDue (boardRow "3" "" "x" "2023-12-25") = some 1704672000 ∧
    (1704412800 : Int) < 1704672000 :=
  ⟨rfl, rfl, rfl, by decide⟩

/-- C5 (amended): `ListItems` returns exactly the rows matching the
filter, ordered by the raw due_at string descending — an absent due-at
is the empty string and therefore sorts last, with no fallback to
14 days after creation — with ties broken by updated_at descending, and
with each item's overdue-day count freshly computed from its due
date. -/
theorem listItems_sorted_raw_due_desc (now : Int) (f : ListFilter) (t : Table) :
    ((ListItems now f t).map Item.toRow).Sorted listBefore ∧
    ((ListItems now f t).map Item.toRow).Perm (t.filter (matchesFilter f)) ∧
    ∀ it ∈ ListItems now f t, it.OverdueDays = computeOverdueDays now it.DueAt := by
  refine ⟨?_, ?_, ?_⟩
  · unfold ListItems
    rw [map_toRow_mk]
    exact List.sorted_insertionSort listBefore _
  · unfold ListItems
    rw [map_toRow_mk]
    exact List.perm_insertionSort listBefore _
  · intro it hit
    unfold ListItems at hit
    obtain ⟨r, _, heq⟩ := List.mem_map.1 hit
    rw [← heq]

theorem normalizeRecord_none (m : RawRecord) (h : firstString m idProbeKeys = "") :
    normalizeRecord m = none := by
  unfold normalizeRecord
  simp [h]

theorem key_empty_of_normalizeRecord_none (m : RawRecord) (h : normalizeRecord m = none) :
    firstString m idProbeKeys = "" := by
  unfold normalizeRecord at h
  by_cases hk : (firstString m idProbeKeys == "") = true
  · exact eq_of_beq hk
  · rw [if_neg hk] at h
    cases h

theorem key_title_of_normalizeRecord (m : RawRecord) (it : RemoteItem)
    (h : normalizeRecord m = some it) :
    it.Key = firstString m idProbeKeys ∧ it.Title = firstString m ["title"] := by
  unfold normalizeRecord at h
  by_cases hk : (firstString m idProbeKeys == "") = true
  · rw [if_pos hk] at h
    cases h
  · rw [if_neg hk] at h
    injection h with h'
    rw [← h']
    exact ⟨rfl, rfl⟩

theorem getList_length_of_keys (l : List RawRecord)
    (h : ∀ m ∈ l, firstString m idProbeKeys ≠ "") : (getList l).length = l.length := by
  induction l with
  | nil => rfl
  | cons m l ih =>
    cases hn : normalizeRecord m with
    | none =>
      exact absurd (key_empty_of_normalizeRecord_none m hn) (h m (List.mem_cons_self m l))
    | some it =>
      unfold getList
      rw [List.filterMap_cons_some hn]
      simp only [List.length_cons]
      exact congrArg (· + 1) (ih (fun m' hm' => h m' (List.mem_cons_of_mem m hm')))

/-- Upserting a batch of valid records with pairwise-distinct identity
triples, none already stored, appends exactly one row per record. -/
theorem foldl_length_of_all_new (l : List CoreItem) : ∀ (t : Table),
    (∀ a ∈ l, validCore a = true) → l.Pairwise (fun a b => keyOfCore a ≠ keyOfCore b) →
    (∀ a ∈ l, hasKey t a = false) →
    (l.foldl applyItem t).length = t.length + l.length := by
  induction l with
  | nil =>
    intro t _ _ _
    simp
  | cons a l ih =>
    intro t hval hpair hnew
    rw [List.foldl_cons]
    have hv := hval a (List.mem_cons_self a l)
    have hk := hnew a (List.mem_cons_self a l)
    have happ : applyItem t a = t ++ [newRow a] := by
      unfold applyItem upsertOne
      rw [if_pos hv, if_neg (by rw [hk]; exact fun hc => Bool.noConfusion hc)]
    rw [happ]
    rw [List.pairwise_cons] at hpair
    rw [ih (t ++ [newRow a]) (fun b hb => hval b (List.mem_cons_of_mem a hb)) hpair.2 ?_]
    · simp only [List.length_append, List.length_singleton, List.length_cons, List.length_nil]
      omega
    · intro b hb
      have h1 : hasKey t b = false := hnew b (List.mem_cons_of_mem a hb)
      have h2 : matchesCore b (newRow a) = false := by
        cases hmm : matchesCore b (newRow a) with
        | false => rfl
        | true =>
          exfalso
          apply hpair.1 b hb
          have := (matchesCore_iff b (newRow a)).1 hmm
          rw [identityOf_newRow] at this
          exact this
      unfold hasKey at h1 ⊢
      rw [List.any_append, h1]
      simp [h2]

/-- C8. A fetched page record missing every usable identity key
(number, iid, id) is dropped silently by normalization — neither
counted nor aborting the page: a page of one identity-less record
among nine valid records with distinct keys, synced into a fresh
store, reports exactly nine written records and leaves exactly nine
rows, and the pure merge has no failure path to raise. -/
theorem upsert_drops_identityless_records (kind repo : String) (bad : RawRecord)
    (pre post : List RawRecord)
    (hkind : kind ≠ "") (hrepo : repo ≠ "")
    (hbad : firstString bad idProbeKeys = "")
    (hgood : ∀ m ∈ pre ++ post, firstString m idProbeKeys ≠ "" ∧ firstString m ["title"] ≠ "")
    (hn : (pre ++ post).length = 9)
    (hdist : (pre ++ post).Pairwise
      (fun m m' => firstString m idProbeKeys ≠ firstString m' idProbeKeys)) :
    (UpsertCore [] ((getList (pre ++ bad :: post)).map (toCoreItem kind repo))).1 = 9 ∧
    ((UpsertCore [] ((getList (pre ++ bad :: post)).map (toCoreItem kind repo))).2).length = 9 := by
  have hpage : getList (pre ++ bad :: post) = getList (pre ++ post) := by
    unfold getList
    rw [List.filterMap_append, List.filterMap_append,
      List.filterMap_cons_none (normalizeRecord_none bad hbad)]
  rw [hpage]
  have hvalid : ∀ a ∈ (getList (pre ++ post)).map (toCoreItem kind repo), validCore a = true := by
    intro a ha
    obtain ⟨it, hit, heq⟩ := List.mem_map.1 ha
    obtain ⟨m, hm, hnorm⟩ := List.mem_filterMap.1 hit
    obtain ⟨hK, hT⟩ := key_title_of_normalizeRecord m it hnorm
    have e1 : (kind == "") = false := beq_eq_false_iff_ne.2 hkind
    have e2 : (repo == "") = false := beq_eq_false_iff_ne.2 hrepo
    have e3 : (it.Key == "") = false := beq_eq_false_iff_ne.2 (by rw [hK]; exact (hgood m hm).1)
    have e4 : (it.Title == "") = false := beq_eq_false_iff_ne.2 (by rw [hT]; exact (hgood m hm).2)
    rw [← heq]
    unfold validCore toCoreItem
    simp only
    rw [e1, e2, e3, e4]
    rfl
  have hlen : ((getList (pre ++ post)).map (toCoreItem kind repo)).length = 9 := by
    rw [List.length_map, getList_length_of_keys (pre ++ post) (fun m hm => (hgood m hm).1), hn]
  have hpairKeys : ((getList (pre ++ post)).map (toCoreItem kind repo)).Pairwise
      (fun a b => keyOfCore a ≠ keyOfCore b) := by
    rw [List.pairwise_map]
    have hkeys : (getList (pre ++ post)).Pairwise (fun it it' => it.Key ≠ it'.Key) := by
      unfold getList
      rw [List.pairwise_filterMap]
      refine hdist.imp ?_
      intro m m' hne it hit it' hit'
      obtain ⟨hK, _⟩ := key_title_of_normalizeRecord m it hit
      obtain ⟨hK', _⟩ := key_title_of_normalizeRecord m' it' hit'
      rw [hK, hK']
      exact hne
    refine hkeys.imp ?_
    intro it it' hne hcontra
    exact hne (congrArg (fun k => k.2.2) hcontra)
  constructor
  · rw [UpsertCore, upsertLoop_fst]
    exact ((List.countP_eq_length).2 hvalid).trans hlen
  · rw [UpsertCore, upsertLoop_snd]
    rw [foldl_length_of_all_new _ [] hvalid hpairKeys (fun a _ => rfl), hlen]
    rfl

/-- C8 witness: a concrete page of one identity-less record among nine
distinct valid records upserts exactly nine rows and reports nine
writes. -/
theorem upsert_drops_identityless_records_witness :
    (UpsertCore [] ((getList ([goodRaw 1, goodRaw 2, goodRaw 3, goodRaw 4] ++ badRaw ::
        [goodRaw 5, goodRaw 6, goodRaw 7, goodRaw 8, goodRaw 9])).map
        (toCoreItem "issue" "o/r"))).1 = 9 ∧
    ((UpsertCore [] ((getList ([goodRaw 1, goodRaw 2, goodRaw 3, goodRaw 4] ++ badRaw ::
        [goodRaw 5, goodRaw 6, goodRaw 7, goodRaw 8, goodRaw 9])).map
        (toCoreItem "issue" "o/r"))).2).length = 9 :=
  upsert_drops_identityless_records "issue" "o/r" badRaw
    [goodRaw 1, goodRaw 2, goodRaw 3, goodRaw 4]
    [goodRaw 5, goodRaw 6, goodRaw 7, goodRaw 8, goodRaw 9]
    (by decide) (by decide) (by decide) (by decide) (by decide) (by decide)

end Tracker
